import Mathlib

/-!
# Verification of the TF RAG decoding/marginalization engine

Shallow embedding of `src/transformers/models/rag/modeling_tf_rag.py`
(classes `TFRagModel`, `TFRagTokenForGeneration`,
`TFRagSequenceForGeneration`) and proofs about it.

Tensors are embedded as functions out of `Fin`-index types (one argument
per axis) with real-valued entries; the floating-point arithmetic of the
source is idealized as exact real arithmetic, which is the reading under
which the "within floating-point tolerance" statements become exact
equalities.  Token ids are `Fin vocab`; the leading `batch*n_docs` axis of
generator logits is kept flat, and the `tf.reshape` to
`(batch, n_docs, ...)` is embedded as row-major index arithmetic.
Autoregressive caches are embedded as nested lists over opaque row types,
so that the reorder arithmetic of `_reorder_cache` is executable.
-/

namespace RagTF

open Finset

/-- Embedding of `tf.reduce_logsumexp` over a `Fin`-indexed axis: `log (Σ i, exp (f i))`. -/
noncomputable def logSumExp {n : ℕ} (f : Fin n → ℝ) : ℝ :=
  Real.log (∑ i, Real.exp (f i))

/-- Embedding of `tf.nn.log_softmax` along a `Fin`-indexed axis:
`f i - log (Σ j, exp (f j))`. -/
noncomputable def logSoftmax {n : ℕ} (f : Fin n → ℝ) (i : Fin n) : ℝ :=
  f i - Real.log (∑ j, Real.exp (f j))

/-- Plain (non-log-space) softmax, used for the brute-force reference
computations of §8 of the spec. -/
noncomputable def softmaxProb {n : ℕ} (f : Fin n → ℝ) (i : Fin n) : ℝ :=
  Real.exp (f i) / (∑ j, Real.exp (f j))

/-- Row-major index arithmetic of the `tf.reshape` from a flat leading axis
of size `batch * n_docs` to separate `(batch, n_docs)` axes: row
`(b, d)` of the reshaped tensor is flat row `b * n_docs + d`. -/
def flatIdx {batch ndocs : ℕ} (b : Fin batch) (d : Fin ndocs) :
    Fin (batch * ndocs) :=
  ⟨b.val * ndocs + d.val, by
    calc b.val * ndocs + d.val < b.val * ndocs + ndocs := by omega
    _ = (b.val + 1) * ndocs := by ring
    _ ≤ batch * ndocs := Nat.mul_le_mul_right ndocs b.isLt⟩

/-- Embedding of `TFRagTokenForGeneration.marginalize` (modeling_tf_rag.py lines
886-896): log-softmax the generator logits over the vocabulary axis,
reshape the flat `batch*n_docs` leading axis to `(batch, n_docs)`,
log-softmax the doc scores over the document axis, add with broadcast,
and `reduce_logsumexp` over the document axis. -/
noncomputable def marginalize {batch ndocs tgt vocab : ℕ}
    (seqLogits : Fin (batch * ndocs) → Fin tgt → Fin vocab → ℝ)
    (docScores : Fin batch → Fin ndocs → ℝ)
    (b : Fin batch) (t : Fin tgt) (v : Fin vocab) : ℝ :=
  logSumExp fun d =>
    logSoftmax (seqLogits (flatIdx b d) t) v + logSoftmax (docScores b) d

lemma sum_exp_pos {n : ℕ} (hn : 0 < n) (f : Fin n → ℝ) :
    0 < ∑ i, Real.exp (f i) := by
  have : Nonempty (Fin n) := Fin.pos_iff_nonempty.mp hn
  exact Finset.sum_pos (fun i _ => Real.exp_pos (f i)) Finset.univ_nonempty

lemma exp_logSoftmax {n : ℕ} (hn : 0 < n) (f : Fin n → ℝ) (i : Fin n) :
    Real.exp (logSoftmax f i) = Real.exp (f i) / (∑ j, Real.exp (f j)) := by
  rw [logSoftmax, Real.exp_sub, Real.exp_log (sum_exp_pos hn f)]

lemma sum_exp_logSoftmax {n : ℕ} (hn : 0 < n) (f : Fin n → ℝ) :
    ∑ i, Real.exp (logSoftmax f i) = 1 := by
  have hpos := sum_exp_pos hn f
  calc ∑ i, Real.exp (logSoftmax f i)
      = ∑ i, Real.exp (f i) / (∑ j, Real.exp (f j)) := by
        exact Finset.sum_congr rfl fun i _ => exp_logSoftmax hn f i
    _ = (∑ i, Real.exp (f i)) / (∑ j, Real.exp (f j)) := by
        rw [Finset.sum_div]
    _ = 1 := div_self (ne_of_gt hpos)

lemma exp_logSumExp {n : ℕ} (hn : 0 < n) (f : Fin n → ℝ) :
    Real.exp (logSumExp f) = ∑ i, Real.exp (f i) :=
  Real.exp_log (sum_exp_pos hn f)

/-- C1: `TFRagTokenForGeneration.marginalize` computes, at every batch
element, target position and vocabulary entry, the log-sum-exp over the
document axis of (per-document token log-softmax + per-document
log-softmax of the doc scores), and the exponentials of the returned
values sum to 1 over the vocabulary axis. -/
theorem marginalize_logsumexp_and_normalized {batch ndocs tgt vocab : ℕ}
    (seqLogits : Fin (batch * ndocs) → Fin tgt → Fin vocab → ℝ)
    (docScores : Fin batch → Fin ndocs → ℝ)
    (hd : 0 < ndocs) (hv : 0 < vocab) :
    (∀ (b : Fin batch) (t : Fin tgt) (v : Fin vocab),
      marginalize seqLogits docScores b t v =
        logSumExp fun d =>
          logSoftmax (seqLogits (flatIdx b d) t) v +
            logSoftmax (docScores b) d) ∧
    (∀ (b : Fin batch) (t : Fin tgt),
      ∑ v, Real.exp (marginalize seqLogits docScores b t v) = 1) := by
  constructor
  · intro b t v
    rfl
  · intro b t
    have hstep : ∀ v : Fin vocab,
        Real.exp (marginalize seqLogits docScores b t v) =
          ∑ d, Real.exp (logSoftmax (seqLogits (flatIdx b d) t) v) *
            Real.exp (logSoftmax (docScores b) d) := by
      intro v
      rw [marginalize, exp_logSumExp hd]
      exact Finset.sum_congr rfl fun d _ => Real.exp_add _ _
    calc ∑ v, Real.exp (marginalize seqLogits docScores b t v)
        = ∑ v, ∑ d, Real.exp (logSoftmax (seqLogits (flatIdx b d) t) v) *
            Real.exp (logSoftmax (docScores b) d) :=
          Finset.sum_congr rfl fun v _ => hstep v
      _ = ∑ d, ∑ v, Real.exp (logSoftmax (seqLogits (flatIdx b d) t) v) *
            Real.exp (logSoftmax (docScores b) d) := Finset.sum_comm
      _ = ∑ d : Fin ndocs, Real.exp (logSoftmax (docScores b) d) := by
          refine Finset.sum_congr rfl fun d _ => ?_
          rw [← Finset.sum_mul, sum_exp_logSoftmax hv, one_mul]
      _ = 1 := sum_exp_logSoftmax hd (docScores b)

/-- Concrete all-zero generator logits for the C1 witness. -/
def zeroSeqLogits : Fin (1 * 1) → Fin 1 → Fin 1 → ℝ := fun _ _ _ => 0

/-- Concrete all-zero doc scores for the C1 witness. -/
def zeroDocScores : Fin 1 → Fin 1 → ℝ := fun _ _ => 0

/-- Witness for C1: the theorem applied at a concrete one-element
instance. -/
theorem marginalize_logsumexp_and_normalized_witness :
    (0 : ℕ) < 1 ∧
    ((∀ (b : Fin 1) (t : Fin 1) (v : Fin 1),
      marginalize zeroSeqLogits zeroDocScores b t v =
        logSumExp fun d =>
          logSoftmax (zeroSeqLogits (flatIdx b d) t) v +
            logSoftmax (zeroDocScores b) d) ∧
    (∀ (b : Fin 1) (t : Fin 1),
      ∑ v, Real.exp (marginalize zeroSeqLogits zeroDocScores b t v) = 1)) :=
  ⟨Nat.one_pos,
    marginalize_logsumexp_and_normalized zeroSeqLogits zeroDocScores
      Nat.one_pos Nat.one_pos⟩

/-! ## Loss engine -/

/-- The left-shift of the target used by both `get_nll` variants
(lines 1831 and 2074): `tf.concat([target[:, 1:], pad-column], axis=1)`. -/
def shiftLeft {batch tl vocab : ℕ} (padTokenId : Fin vocab)
    (target : Fin batch → Fin tl → Fin vocab) :
    Fin batch → Fin tl → Fin vocab :=
  fun b p => if h : p.val + 1 < tl then target b ⟨p.val + 1, h⟩ else padTokenId

/-- Embedding of `tf.clip_by_value` on a scalar entry. -/
noncomputable def clipByValue (lo hi x : ℝ) : ℝ := min (max x lo) hi

/-- A loss tensor that is either a reduced scalar or a per-batch-element
vector, the two possible result shapes of the sequence-level `get_nll`. -/
inductive Tensor01 (n : ℕ) where
  | scalar (x : ℝ)
  | vector (v : Fin n → ℝ)

namespace TFRagToken

/-- Embedding of `TFRagTokenForGeneration.compute_loss` (lines 1838-1864): flatten
labels, keep the positions whose label is not the pad token, and apply
`SparseCategoricalCrossentropy(from_logits=True, reduction=SUM)` — i.e.
sum, over the active positions, of minus the log-softmax of the logits
row at the label — plus the uniform smoothing term weighted by
`smooth_epsilon / vocab`.  The `reduceLoss` argument is accepted and
never used, exactly as in the source (the keras reduction is always
`SUM`), and the `from_logits=False` branch clips to `[1e-9, 1-1e-9]`
and takes logs. -/
noncomputable def compute_loss {batch tl vocab : ℕ} (padTokenId : Fin vocab)
    (labels : Fin batch → Fin tl → Fin vocab)
    (yPred : Fin batch → Fin tl → Fin vocab → ℝ)
    (smoothEpsilon : ℝ) (fromLogits : Bool) (reduceLoss : Bool) : ℝ :=
  let logits : Fin batch → Fin tl → Fin vocab → ℝ :=
    if fromLogits then yPred
    else fun b p v => Real.log (clipByValue (1e-9) (1 - 1e-9) (yPred b p v))
  let active : Finset (Fin batch × Fin tl) :=
    Finset.univ.filter fun bp => labels bp.1 bp.2 ≠ padTokenId
  let nllLoss : ℝ :=
    ∑ bp ∈ active, -(logSoftmax (logits bp.1 bp.2) (labels bp.1 bp.2))
  let smoothLoss : ℝ := ∑ bp ∈ active, -(∑ v, logits bp.1 bp.2 v)
  let epsI : ℝ := smoothEpsilon / (vocab : ℝ)
  (1 - smoothEpsilon) * nllLoss + epsI * smoothLoss

/-- Embedding of `TFRagTokenForGeneration.get_nll` (lines 1827-1835): shift the target
left, marginalize the generator logits over documents, and call
`compute_loss` — which, as in the source, is invoked WITHOUT forwarding
`epsilon` (so `smooth_epsilon` keeps its `0.0` default). -/
noncomputable def get_nll {batch ndocs tl vocab : ℕ} (padTokenId : Fin vocab)
    (seqLogits : Fin (batch * ndocs) → Fin tl → Fin vocab → ℝ)
    (docScores : Fin batch → Fin ndocs → ℝ)
    (target : Fin batch → Fin tl → Fin vocab)
    (reduceLoss : Bool) (epsilon : ℝ) : ℝ :=
  let target2 := shiftLeft padTokenId target
  let ragLogprobs := marginalize seqLogits docScores
  compute_loss padTokenId target2 ragLogprobs 0 true reduceLoss

end TFRagToken

namespace TFRagSequence

/-- The sequence-level `rag_logprobs` tensor (lines 2090-2102): token
log-softmax, reshaped over `(batch, n_docs)`, with the doc-score
log-softmax added at target position 1 only (`tf.concat` of the
first-token scores, second-token scores plus doc log-probs, and the
remainder). -/
noncomputable def ragLogprobs {batch ndocs tl vocab : ℕ}
    (seqLogits : Fin (batch * ndocs) → Fin tl → Fin vocab → ℝ)
    (docScores : Fin batch → Fin ndocs → ℝ)
    (b : Fin batch) (d : Fin ndocs) (p : Fin tl) (v : Fin vocab) : ℝ :=
  let tok := logSoftmax (seqLogits (flatIdx b d) p) v
  if p.val = 1 then tok + logSoftmax (docScores b) d else tok

/-- Embedding of `use_bos` (lines 2077-2080): a bos token id is configured and every
row of the (shifted) target starts with it. -/
def useBos {batch tl vocab : ℕ} (bosTokenId : Option (Fin vocab))
    (target2 : Fin batch → Fin tl → Fin vocab) : Bool :=
  match bosTokenId with
  | none => false
  | some bv =>
      (List.finRange batch).all fun b =>
        (List.finRange tl).all fun p => p.val != 0 || target2 b p == bv

/-- The gathered per-token log-likelihood after `_mask_pads`
(lines 2082-2087, 2125, 2128): positions whose shifted-target token is
the pad token are zeroed — but, as in the source, only when some pad
position exists at all (`tf.reduce_any(pad_mask)`). -/
noncomputable def llMasked {batch ndocs tl vocab : ℕ} (padTokenId : Fin vocab)
    (seqLogits : Fin (batch * ndocs) → Fin tl → Fin vocab → ℝ)
    (docScores : Fin batch → Fin ndocs → ℝ)
    (target2 : Fin batch → Fin tl → Fin vocab)
    (b : Fin batch) (d : Fin ndocs) (p : Fin tl) : ℝ :=
  let ll := ragLogprobs seqLogits docScores b d p (target2 b p)
  if ∃ b' p', target2 b' p' = padTokenId then
    if target2 b p = padTokenId then 0 else ll
  else ll

/-- The smoothing objective after `_mask_pads` (lines 2126, 2128):
`reduce_sum` of `rag_logprobs` over the vocabulary, with pad positions
zeroed under the same `reduce_any` guard. -/
noncomputable def smoothMasked {batch ndocs tl vocab : ℕ} (padTokenId : Fin vocab)
    (seqLogits : Fin (batch * ndocs) → Fin tl → Fin vocab → ℝ)
    (docScores : Fin batch → Fin ndocs → ℝ)
    (target2 : Fin batch → Fin tl → Fin vocab)
    (b : Fin batch) (d : Fin ndocs) (p : Fin tl) : ℝ :=
  let so := ∑ v, ragLogprobs seqLogits docScores b d p v
  if ∃ b' p', target2 b' p' = padTokenId then
    if target2 b p = padTokenId then 0 else so
  else so

/-- Sum of the masked log-likelihood over the target-length axis
(lines 2131-2134), skipping position 0 when `exclude_bos_score` and
`use_bos` both hold. -/
noncomputable def llSum {batch ndocs tl vocab : ℕ} (padTokenId : Fin vocab)
    (bosTokenId : Option (Fin vocab))
    (seqLogits : Fin (batch * ndocs) → Fin tl → Fin vocab → ℝ)
    (docScores : Fin batch → Fin ndocs → ℝ)
    (target2 : Fin batch → Fin tl → Fin vocab)
    (excludeBosScore : Bool) (b : Fin batch) (d : Fin ndocs) : ℝ :=
  if excludeBosScore && useBos bosTokenId target2 then
    ∑ p ∈ Finset.univ.filter (fun p : Fin tl => 1 ≤ p.val),
      llMasked padTokenId seqLogits docScores target2 b d p
  else
    ∑ p, llMasked padTokenId seqLogits docScores target2 b d p

/-- Sum of the masked smoothing objective over the target-length axis
(line 2136). -/
noncomputable def smoothSum {batch ndocs tl vocab : ℕ} (padTokenId : Fin vocab)
    (seqLogits : Fin (batch * ndocs) → Fin tl → Fin vocab → ℝ)
    (docScores : Fin batch → Fin ndocs → ℝ)
    (target2 : Fin batch → Fin tl → Fin vocab)
    (b : Fin batch) (d : Fin ndocs) : ℝ :=
  ∑ p, smoothMasked padTokenId seqLogits docScores target2 b d p

/-- Per-batch-element negative log-likelihood (lines 2137, 2140):
`-reduce_logsumexp` over the document axis of the token-summed
log-likelihood. -/
noncomputable def nllVec {batch ndocs tl vocab : ℕ} (padTokenId : Fin vocab)
    (bosTokenId : Option (Fin vocab))
    (seqLogits : Fin (batch * ndocs) → Fin tl → Fin vocab → ℝ)
    (docScores : Fin batch → Fin ndocs → ℝ)
    (target2 : Fin batch → Fin tl → Fin vocab)
    (excludeBosScore : Bool) (b : Fin batch) : ℝ :=
  -(logSumExp fun d =>
    llSum padTokenId bosTokenId seqLogits docScores target2 excludeBosScore b d)

/-- Per-batch-element smoothing loss (lines 2138, 2141). -/
noncomputable def smoothVec {batch ndocs tl vocab : ℕ} (padTokenId : Fin vocab)
    (seqLogits : Fin (batch * ndocs) → Fin tl → Fin vocab → ℝ)
    (docScores : Fin batch → Fin ndocs → ℝ)
    (target2 : Fin batch → Fin tl → Fin vocab)
    (b : Fin batch) : ℝ :=
  -(logSumExp fun d => smoothSum padTokenId seqLogits docScores target2 b d)

/-- Embedding of `TFRagSequenceForGeneration.get_nll` (lines 2070-2149): shift the
target left, build the sequence-marginalized log-likelihood, mask pads,
sum over tokens, `logsumexp` over documents, optionally reduce over the
batch (`tf.reduce_sum` when `reduce_loss`), and blend with the smoothing
term weighted by `epsilon / vocab`. -/
noncomputable def get_nll {batch ndocs tl vocab : ℕ} (padTokenId : Fin vocab)
    (bosTokenId : Option (Fin vocab))
    (seqLogits : Fin (batch * ndocs) → Fin tl → Fin vocab → ℝ)
    (docScores : Fin batch → Fin ndocs → ℝ)
    (target : Fin batch → Fin tl → Fin vocab)
    (reduceLoss : Bool) (epsilon : ℝ) (excludeBosScore : Bool) :
    Tensor01 batch :=
  let target2 := shiftLeft padTokenId target
  if reduceLoss then
    .scalar ((1 - epsilon) *
        (∑ b, nllVec padTokenId bosTokenId seqLogits docScores target2
          excludeBosScore b) +
      (epsilon / (vocab : ℝ)) *
        (∑ b, smoothVec padTokenId seqLogits docScores target2 b))
  else
    .vector fun b =>
      (1 - epsilon) *
          nllVec padTokenId bosTokenId seqLogits docScores target2
            excludeBosScore b +
        (epsilon / (vocab : ℝ)) *
          smoothVec padTokenId seqLogits docScores target2 b

end TFRagSequence

/-- C3: the token-level `get_nll` does NOT apply label smoothing: because
the source calls `compute_loss` without forwarding `epsilon` (line 1833),
the returned loss is identical for every smoothing weight, and always
equals the plain masked cross-entropy of the document-marginalized
log-probabilities against the left-shifted target.  This refutes the
claimed `(1-ε)·CE + ε/vocab·smoothing` blend for `ε > 0`. -/
theorem token_get_nll_ignores_epsilon {batch ndocs tl vocab : ℕ}
    (padTokenId : Fin vocab)
    (seqLogits : Fin (batch * ndocs) → Fin tl → Fin vocab → ℝ)
    (docScores : Fin batch → Fin ndocs → ℝ)
    (target : Fin batch → Fin tl → Fin vocab)
    (reduceLoss : Bool) (ε ε' : ℝ) :
    TFRagToken.get_nll padTokenId seqLogits docScores target reduceLoss ε =
      TFRagToken.get_nll padTokenId seqLogits docScores target reduceLoss ε' ∧
    TFRagToken.get_nll padTokenId seqLogits docScores target reduceLoss ε =
      ∑ bp ∈ Finset.univ.filter
          (fun bp : Fin batch × Fin tl =>
            shiftLeft padTokenId target bp.1 bp.2 ≠ padTokenId),
        -(logSoftmax (marginalize seqLogits docScores bp.1 bp.2)
          (shiftLeft padTokenId target bp.1 bp.2)) := by
  refine ⟨rfl, ?_⟩
  simp [TFRagToken.get_nll, TFRagToken.compute_loss]

/-- C7: the `reduce_loss` flag changes the result shape only for the
sequence-level variant.  `TFRagTokenForGeneration.compute_loss` accepts
`reduce_loss` but ignores it (the keras reduction is always `SUM`), so
the token-level loss is the same scalar under both settings; the
sequence-level `get_nll` returns the summed scalar for `True` and the
per-batch-element vector for `False`, and those two shapes are distinct. -/
theorem get_nll_reduce_loss_shapes {batch ndocs tl vocab : ℕ}
    (padTokenId : Fin vocab) (bosTokenId : Option (Fin vocab))
    (seqLogits : Fin (batch * ndocs) → Fin tl → Fin vocab → ℝ)
    (docScores : Fin batch → Fin ndocs → ℝ)
    (target : Fin batch → Fin tl → Fin vocab)
    (ε : ℝ) (excludeBosScore : Bool) :
    TFRagToken.get_nll padTokenId seqLogits docScores target true ε =
      TFRagToken.get_nll padTokenId seqLogits docScores target false ε ∧
    TFRagSequence.get_nll padTokenId bosTokenId seqLogits docScores target
        true ε excludeBosScore =
      Tensor01.scalar (∑ b,
        ((1 - ε) * TFRagSequence.nllVec padTokenId bosTokenId seqLogits
            docScores (shiftLeft padTokenId target) excludeBosScore b +
          (ε / (vocab : ℝ)) * TFRagSequence.smoothVec padTokenId seqLogits
            docScores (shiftLeft padTokenId target) b)) ∧
    TFRagSequence.get_nll padTokenId bosTokenId seqLogits docScores target
        false ε excludeBosScore =
      Tensor01.vector (fun b =>
        (1 - ε) * TFRagSequence.nllVec padTokenId bosTokenId seqLogits
            docScores (shiftLeft padTokenId target) excludeBosScore b +
          (ε / (vocab : ℝ)) * TFRagSequence.smoothVec padTokenId seqLogits
            docScores (shiftLeft padTokenId target) b) ∧
    (∀ (x : ℝ) (v : Fin batch → ℝ),
      Tensor01.scalar x ≠ Tensor01.vector v) := by
  refine ⟨rfl, ?_, rfl, ?_⟩
  · show Tensor01.scalar _ = Tensor01.scalar _
    congr 1
    rw [Finset.sum_add_distrib, Finset.mul_sum, Finset.mul_sum]
  · intro x v h
    exact Tensor01.noConfusion h

/-! ## Precondition checks (C4) -/

/-- The assertion chain of `TFRagModel.call` on the no-retriever path
(lines 667-684): `context_input_ids`, `context_attention_mask` and
`doc_scores` must all be passed, and the divisibility assert at lines
682-684 tests `doc_scores.shape[1] % n_docs == 0` — it never consults
`context_input_ids.shape[0]`, although its error message speaks about
that dimension.  `contextRows` is therefore an unused argument, exactly
as in the source.  `true` means every assert passed and control reaches
the generator invocation at line 693. -/
def ragModelCallNoRetrieverPasses (hasCtxIds hasCtxMask hasDocScores : Bool)
    (contextRows docScoresCols nDocs : ℕ) : Bool :=
  hasCtxIds && hasCtxMask && hasDocScores && (docScoresCols % nDocs == 0)

/-- The divisibility assert of `TFRagTokenForGeneration.generate`
(lines 1196-1198), which does test `context_input_ids.shape[0]`. -/
def tokenGenerateDivisibilityCheckPasses (contextRows nDocs : ℕ) : Bool :=
  contextRows % nDocs == 0

/-- C4: the divisibility precondition is enforced in
`TFRagTokenForGeneration.generate` but NOT in `TFRagModel.call` — the
`call` assert checks the second dimension of `doc_scores` instead of the
context-row count, so a call with 3 context rows, `n_docs = 2` and a
well-formed `(batch, 2)` `doc_scores` passes every assert and proceeds
to the generator; indeed the `call` check is independent of the
context-row count altogether. -/
theorem call_divisibility_check_bug :
    ragModelCallNoRetrieverPasses true true true 3 2 2 = true ∧
    ¬ (3 % 2 = 0) ∧
    tokenGenerateDivisibilityCheckPasses 3 2 = false ∧
    (∀ (rows rows' cols n : ℕ),
      ragModelCallNoRetrieverPasses true true true rows cols n =
        ragModelCallNoRetrieverPasses true true true rows' cols n) :=
  ⟨rfl, by decide, rfl, fun _ _ _ _ => rfl⟩

/-! ## Cache reorder (C5, C6) -/

/-- Embedding of `_reorder_stacked` (lines 869-873): compute
`n_docs = rows / len(new_order)`, reshape the leading axis to
`(-1, n_docs)`, `index_select` along the first reshaped axis with
`new_order`, and reshape back.  On the list of leading-axis rows this
is: concatenate, for each index of `new_order`, the block of `n_docs`
consecutive rows starting at `index * n_docs`. -/
def reorder_stacked {α : Type} (hiddenStates : List α) (newOrder : List ℕ) :
    List α :=
  let nDocs := hiddenStates.length / newOrder.length
  (newOrder.map fun idx => (hiddenStates.drop (idx * nDocs)).take nDocs).flatten

/-- The `past` value handed to the cache helpers, as the source
pattern-matches on it: `None`, the empty tuple, or a tuple whose first
element is the encoder output and whose remaining elements are
decoder-cache-shaped values (a tuple of per-layer tuples of tensors,
each tensor embedded as its list of leading-axis rows). -/
inductive RagPast (ε α : Type) where
  | noneP : RagPast ε α
  | emptyP : RagPast ε α
  | tupP (encoderOutput : ε) (rest : List (List (List (List α)))) : RagPast ε α
deriving DecidableEq

/-- Errors raised by the cache helpers. -/
inductive CacheError where
  | typeError
  | indexError
  | assertionError
deriving DecidableEq

/-- Embedding of `TFRagTokenForGeneration._reorder_cache` (lines 875-884): `len(None)`
raises `TypeError`; for the empty tuple `len(past) != 1` and `past[1]`
raises `IndexError`; a 1-tuple is returned unchanged; otherwise the
function uses only `past[0]` and `past[1]` and returns the 2-tuple
`(past[0], reordered past[1])` — any further tuple elements are silently
dropped. -/
def tf_reorder_cache {ε α : Type} :
    RagPast ε α → List ℕ → Except CacheError (RagPast ε α)
  | .noneP, _ => .error .typeError
  | .emptyP, _ => .error .indexError
  | .tupP e [], _ => .ok (.tupP e [])
  | .tupP e (kv :: _), beamIdx =>
      .ok (.tupP e
        [kv.map fun layerPast =>
          layerPast.map fun pastState => reorder_stacked pastState beamIdx])

/-- The structural assertion chain of
`TFRagTokenForGeneration.prepare_inputs_for_generation` (lines 787-815):
`past` must be a tuple of length 1 or 2 (`assert past is not None and
len(past) in {1, 2}`), and in the length-2 case the decoder cached
states must be truthy. -/
def prepare_inputs_validate {ε α : Type} :
    RagPast ε α → Except CacheError Unit
  | .noneP => .error .assertionError
  | .emptyP => .error .assertionError
  | .tupP _ [] => .ok ()
  | .tupP _ [kv] => if kv.isEmpty then .error .assertionError else .ok ()
  | .tupP _ (_ :: _ :: _) => .error .assertionError

/-- The block of `nd` consecutive leading-axis rows starting at row
`o * nd`: one slice of the `(-1, n_docs, ...)` reshape. -/
def chunkAt {α : Type} (l : List α) (nd o : ℕ) : List α :=
  (l.drop (o * nd)).take nd

lemma reorder_stacked_eq_flatten {α : Type} {B nd : ℕ} (l : List α)
    (order : List ℕ) (hl : l.length = B * nd) (hlen : order.length = B)
    (hB : 0 < B) :
    reorder_stacked l order = (order.map (chunkAt l nd)).flatten := by
  unfold reorder_stacked chunkAt
  rw [hl, hlen, Nat.mul_div_cancel_left nd hB]

lemma chunkAt_length {α : Type} {B nd o : ℕ} {l : List α}
    (hl : l.length = B * nd) (ho : o < B) : (chunkAt l nd o).length = nd := by
  have h1 : (o + 1) * nd ≤ B * nd := Nat.mul_le_mul_right nd ho
  have h2 : o * nd + nd ≤ B * nd := by
    calc o * nd + nd = (o + 1) * nd := by ring
    _ ≤ B * nd := h1
  simp only [chunkAt, List.length_take, List.length_drop, hl]
  omega

lemma chunkAt_flatten {α : Type} {nd : ℕ} :
    ∀ (ls : List (List α)) (i : ℕ), (∀ x ∈ ls, x.length = nd) →
      i < ls.length → chunkAt ls.flatten nd i = ls.getD i [] := by
  intro ls
  induction ls with
  | nil => intro i _ hi; exact absurd hi (by simp)
  | cons x xs ih =>
    intro i hlen hi
    match i with
    | 0 =>
      have hx : x.length = nd := hlen x (by simp)
      simp only [chunkAt, Nat.zero_mul, List.drop_zero, List.flatten_cons,
        List.getD_cons_zero]
      rw [← hx, List.take_left]
    | i + 1 =>
      have hx : x.length = nd := hlen x (by simp)
      have hdrop : (x ++ xs.flatten).drop ((i + 1) * nd) =
          xs.flatten.drop (i * nd) := by
        have h1 : nd ≤ (i + 1) * nd := by
          calc nd = 1 * nd := (one_mul nd).symm
          _ ≤ (i + 1) * nd := Nat.mul_le_mul_right nd (by omega)
        rw [List.drop_append_eq_append_drop]
        rw [List.drop_of_length_le (by omega), hx]
        have : (i + 1) * nd - nd = i * nd := by
          have : (i + 1) * nd = i * nd + nd := by ring
          omega
        rw [this, List.nil_append]
      simp only [chunkAt, List.flatten_cons]
      rw [hdrop]
      have := ih i (fun y hy => hlen y (by simp [hy])) (by simpa using hi)
      simpa [chunkAt, List.getD_cons_succ] using this

lemma flatten_chunkAt_range {α : Type} {nd : ℕ} :
    ∀ (B : ℕ) (l : List α), l.length = B * nd →
      ((List.range B).map (chunkAt l nd)).flatten = l := by
  intro B
  induction B with
  | zero =>
    intro l hl
    simp [List.eq_nil_of_length_eq_zero (by simpa using hl)]
  | succ B ih =>
    intro l hl
    have hlen1 : (l.take (B * nd)).length = B * nd := by
      simp only [List.length_take, hl]
      have : B * nd ≤ (B + 1) * nd := Nat.mul_le_mul_right nd (by omega)
      omega
    have hsplit : l.take (B * nd) ++ l.drop (B * nd) = l :=
      List.take_append_drop _ l
    have hchunk : ∀ i < B, chunkAt l nd i = chunkAt (l.take (B * nd)) nd i := by
      intro i hi
      have h2 : i * nd + nd ≤ B * nd := by
        have : (i + 1) * nd ≤ B * nd := Nat.mul_le_mul_right nd hi
        calc i * nd + nd = (i + 1) * nd := by ring
        _ ≤ B * nd := this
      unfold chunkAt
      conv_lhs => rw [← hsplit]
      rw [List.drop_append_of_le_length (by omega)]
      rw [List.take_append_of_le_length]
      simp only [List.length_drop, hlen1]
      omega
    rw [List.range_succ, List.map_append, List.flatten_append]
    have hmap : (List.range B).map (chunkAt l nd) =
        (List.range B).map (chunkAt (l.take (B * nd)) nd) :=
      List.map_congr_left fun i hi => hchunk i (List.mem_range.mp hi)
    rw [hmap, ih _ hlen1]
    have hlast : chunkAt l nd B = l.drop (B * nd) := by
      unfold chunkAt
      apply List.take_of_length_le
      simp only [List.length_drop, hl]
      have : (B + 1) * nd = B * nd + nd := by ring
      omega
    simp only [List.map_cons, List.map_nil, List.flatten_cons,
      List.flatten_nil, List.append_nil, hlast]
    exact hsplit

lemma reorder_stacked_length {α : Type} {B nd : ℕ} {l : List α}
    {order : List ℕ} (hl : l.length = B * nd) (hlen : order.length = B)
    (hB : 0 < B) (horder : ∀ o ∈ order, o < B) :
    (reorder_stacked l order).length = B * nd := by
  rw [reorder_stacked_eq_flatten l order hl hlen hB, List.length_flatten,
    List.map_map]
  have : order.map (List.length ∘ chunkAt l nd) = order.map fun _ => nd :=
    List.map_congr_left fun o ho => chunkAt_length hl (horder o ho)
  rw [this, show (fun _ : ℕ => nd) = Function.const ℕ nd from rfl,
    List.map_const, List.sum_replicate, smul_eq_mul, hlen]

lemma getD_map_of_lt {α β : Type} (f : α → β) {l : List α} {i : ℕ}
    (hi : i < l.length) (d : α) (e : β) :
    (l.map f).getD i e = f (l.getD i d) := by
  rw [List.getD_eq_getElem _ _ (by simpa using hi),
    List.getD_eq_getElem _ _ hi, List.getElem_map]

lemma reorder_stacked_chunkAt {α : Type} {B nd : ℕ} {l : List α}
    {order : List ℕ} (hl : l.length = B * nd) (hlen : order.length = B)
    (hB : 0 < B) (horder : ∀ o ∈ order, o < B) {i : ℕ} (hi : i < B) :
    chunkAt (reorder_stacked l order) nd i = chunkAt l nd (order.getD i 0) := by
  rw [reorder_stacked_eq_flatten l order hl hlen hB]
  rw [chunkAt_flatten (order.map (chunkAt l nd)) i
    (fun x hx => by
      obtain ⟨o, ho, rfl⟩ := List.mem_map.mp hx
      exact chunkAt_length hl (horder o ho))
    (by simpa [hlen] using hi)]
  exact getD_map_of_lt (chunkAt l nd) (by omega : i < order.length) 0 []

lemma reorder_stacked_identity {α : Type} {B : ℕ} {l : List α}
    (hB : 0 < B) (hdvd : B ∣ l.length) :
    reorder_stacked l (List.range B) = l := by
  obtain ⟨nd, hnd⟩ := hdvd
  rw [reorder_stacked_eq_flatten l (List.range B) hnd (List.length_range B) hB]
  exact flatten_chunkAt_range B l hnd

lemma reorder_stacked_inverse {α : Type} {B : ℕ} {l : List α} {p q : List ℕ}
    (hB : 0 < B) (hdvd : B ∣ l.length)
    (hp : p.length = B) (hq : q.length = B)
    (hpmem : ∀ o ∈ p, o < B) (hqmem : ∀ o ∈ q, o < B)
    (hinv : ∀ i, i < B → p.getD (q.getD i 0) 0 = i) :
    reorder_stacked (reorder_stacked l p) q = l := by
  obtain ⟨nd, hnd⟩ := hdvd
  have hlp : (reorder_stacked l p).length = B * nd :=
    reorder_stacked_length hnd hp hB hpmem
  rw [reorder_stacked_eq_flatten _ q hlp hq hB]
  have hmap : q.map (chunkAt (reorder_stacked l p) nd) =
      (List.range B).map (chunkAt l nd) := by
    apply List.ext_getElem (by simp [hq])
    intro i h1 h2
    have hiB : i < B := by simpa [hq] using h1
    have hiq : i < q.length := by omega
    simp only [List.getElem_map, List.getElem_range]
    rw [show q[i] = q.getD i 0 from (List.getD_eq_getElem q 0 hiq).symm]
    have hqi : q.getD i 0 < B := by
      rw [List.getD_eq_getElem q 0 hiq]
      exact hqmem _ (List.getElem_mem hiq)
    rw [reorder_stacked_chunkAt hnd hp hB hpmem hqi, hinv i hiB]
  rw [hmap]
  exact flatten_chunkAt_range B l hnd

/-- C5: `_reorder_cache` on a well-formed cache: the identity
permutation leaves the cache unchanged, a permutation followed by its
inverse restores the original cache, and the encoder-output element
`past[0]` is returned unchanged by every reorder. -/
theorem reorder_cache_roundtrip {ε α : Type} (e : ε)
    (kv : List (List (List α))) (B : ℕ) (p q : List ℕ)
    (hB : 0 < B)
    (hdvd : ∀ layer ∈ kv, ∀ st ∈ layer, B ∣ st.length)
    (hp : p.length = B) (hq : q.length = B)
    (hpmem : ∀ o ∈ p, o < B) (hqmem : ∀ o ∈ q, o < B)
    (hinv : ∀ i, i < B → p.getD (q.getD i 0) 0 = i) :
    tf_reorder_cache (RagPast.tupP e [kv]) (List.range B) =
      .ok (RagPast.tupP e [kv]) ∧
    (tf_reorder_cache (RagPast.tupP e [kv]) p).bind
        (fun c => tf_reorder_cache c q) = .ok (RagPast.tupP e [kv]) ∧
    (∀ (rest : List (List (List (List α)))) (idx : List ℕ),
      ∃ rest2, tf_reorder_cache (RagPast.tupP e rest) idx =
        .ok (RagPast.tupP e rest2)) := by
  refine ⟨?_, ?_, ?_⟩
  · show Except.ok (RagPast.tupP e _) = Except.ok (RagPast.tupP e [kv])
    have : kv.map (fun layerPast => layerPast.map
        (fun st => reorder_stacked st (List.range B))) = kv := by
      have h1 : ∀ layer ∈ kv, layer.map
          (fun st => reorder_stacked st (List.range B)) = layer := by
        intro layer hlayer
        have := List.map_congr_left
          (fun st hst => reorder_stacked_identity hB (hdvd layer hlayer st hst))
        calc layer.map (fun st => reorder_stacked st (List.range B))
            = layer.map id := this
        _ = layer := List.map_id layer
      calc kv.map (fun layerPast => layerPast.map
            (fun st => reorder_stacked st (List.range B)))
          = kv.map id := List.map_congr_left fun layer hl => h1 layer hl
      _ = kv := List.map_id kv
    rw [this]
  · show ((Except.ok (RagPast.tupP e _) : Except CacheError _).bind _) = _
    simp only [Except.bind]
    show Except.ok (RagPast.tupP e _) = Except.ok (RagPast.tupP e [kv])
    have hlayer1 : ∀ layer ∈ kv,
        (layer.map (fun st => reorder_stacked st p)).map
          (fun st => reorder_stacked st q) = layer := by
      intro layer hlayer
      rw [List.map_map]
      refine Eq.trans (List.map_congr_left fun st hst => ?_)
        (List.map_id layer)
      show reorder_stacked (reorder_stacked st p) q = st
      exact reorder_stacked_inverse hB (hdvd layer hlayer st hst)
        hp hq hpmem hqmem hinv
    have hkv : (kv.map (fun layerPast => layerPast.map
          (fun st => reorder_stacked st p))).map
        (fun layerPast => layerPast.map (fun st => reorder_stacked st q)) =
          kv := by
      rw [List.map_map]
      refine Eq.trans (List.map_congr_left fun layer hlayer => ?_)
        (List.map_id kv)
      show (layer.map (fun st => reorder_stacked st p)).map
        (fun st => reorder_stacked st q) = layer
      exact hlayer1 layer hlayer
    rw [hkv]
  · intro rest idx
    match rest with
    | [] => exact ⟨[], rfl⟩
    | kv2 :: tail => exact ⟨_, rfl⟩

/-- Witness for C5: the round-trip theorem applied to a concrete cache
with two beams, one document per beam, one layer and one state tensor,
and the swap permutation (its own inverse). -/
theorem reorder_cache_roundtrip_witness :
    tf_reorder_cache (RagPast.tupP (5 : ℕ) [[[[10, 20]]]]) (List.range 2) =
      .ok (RagPast.tupP 5 [[[[10, 20]]]]) ∧
    (tf_reorder_cache (RagPast.tupP (5 : ℕ) [[[[10, 20]]]]) [1, 0]).bind
        (fun c => tf_reorder_cache c [1, 0]) =
      .ok (RagPast.tupP 5 [[[[10, 20]]]]) ∧
    (∀ (rest : List (List (List (List ℕ)))) (idx : List ℕ),
      ∃ rest2, tf_reorder_cache (RagPast.tupP (5 : ℕ) rest) idx =
        .ok (RagPast.tupP 5 rest2)) :=
  reorder_cache_roundtrip 5 [[[10, 20]]] 2 [1, 0] [1, 0]
    (by decide) (by decide) (by decide) (by decide)
    (by decide) (by decide) (by decide)

/-- C6 counterexample: a 3-tuple cache (one extra element after the
encoder output and the decoder cache) is NOT rejected by
`_reorder_cache` — it is silently processed into a 2-tuple, dropping the
third element, instead of raising a structural error. -/
theorem reorder_cache_three_tuple_no_error :
    tf_reorder_cache (RagPast.tupP (0 : ℕ) [[[[1, 2]]], [[[3, 4]]]]) [0] =
      .ok (RagPast.tupP 0 [[[[1, 2]]]]) ∧
    (∀ c : CacheError,
      tf_reorder_cache (RagPast.tupP (0 : ℕ) [[[[1, 2]]], [[[3, 4]]]]) [0] ≠
        .error c) :=
  ⟨rfl, fun c h => Except.noConfusion h⟩

/-- C6 (amended): `prepare_inputs_for_generation` raises a structural
error for every unrecognized cache form (`None`, the empty tuple, and
tuples of length 3 or more), and `_reorder_cache` raises for `None` and
the empty tuple; but `_reorder_cache` does NOT reject tuples of length 3
or more — it silently processes `past[0]` and `past[1]` and drops the
rest. -/
theorem cache_structural_error_behaviour (ε α : Type) :
    (∀ idx : List ℕ,
      tf_reorder_cache (RagPast.noneP : RagPast ε α) idx =
        .error .typeError) ∧
    (∀ idx : List ℕ,
      tf_reorder_cache (RagPast.emptyP : RagPast ε α) idx =
        .error .indexError) ∧
    (∀ (e : ε) (kv : List (List (List α))) rest idx,
      ∃ kvR, tf_reorder_cache (RagPast.tupP e (kv :: rest)) idx =
        .ok (RagPast.tupP e [kvR])) ∧
    prepare_inputs_validate (RagPast.noneP : RagPast ε α) =
      .error .assertionError ∧
    prepare_inputs_validate (RagPast.emptyP : RagPast ε α) =
      .error .assertionError ∧
    (∀ (e : ε) (r1 r2 : List (List (List α))) rest,
      prepare_inputs_validate (RagPast.tupP e (r1 :: r2 :: rest)) =
        .error .assertionError) :=
  ⟨fun _ => rfl, fun _ => rfl,
    fun e kv rest idx => ⟨_, rfl⟩,
    rfl, rfl, fun _ _ _ _ => rfl⟩

/-! ## Logit masking during decoding (C8)

Scores are `WithBot ℝ`: `⊥` embeds the `-float("inf")` written by the
banning masks, and finite entries are ordinary reals. -/

/-- Modelled from the spec: `set_tensor_by_indices_to_value` is imported
from `generation_tf_utils` (not under `src/`); per its call sites and §8
of the spec ("banned-mask tensor") it writes `value` at every masked
position and keeps the original entries elsewhere. -/
def set_tensor_by_indices_to_value {ρ τ ν : Type} (scores : ρ → τ → ν)
    (mask : ρ → τ → Bool) (value : ν) : ρ → τ → ν :=
  fun r t => if mask r t then value else scores r t

/-- Exponential extended to scores with `-inf`: the probability weight a score
contributes after normalization is `0` at `⊥`. -/
noncomputable def expWB (s : WithBot ℝ) : ℝ :=
  WithBot.recBotCoe 0 Real.exp s

/-- CPython identity (`is`) on two non-negative ints, as used by the eos
mask comprehensions `token is eos_token_id` (lines 1386 and 1708):
CPython interns only the ints in `[-5, 256]` (token ids here are
non-negative), so two int objects with the same value are the same
object exactly when that value is at most 256; for larger equal values
the `range` iterate and the config int are distinct objects and `is` is
`False`. -/
def pyIntIs (a b : ℕ) : Bool :=
  a == b && decide (a ≤ 256)

/-- The per-step score pipeline of `_generate_beam_search`
(lines 1362-1422): repetition penalty (multiplication by the externally
computed penalty tensor, applied when `repetition_penalty != 1.0`),
temperature division, the generator's `adjust_logits_during_generation`
hook (applied when encoder-decoder and not sampling), `log_softmax`,
then — in this order — the eos ban while `cur_len < min_length`, the
n-gram-repeat ban and the bad-words ban, each written as `-inf` through
`set_tensor_by_indices_to_value`.  The eos mask is built with Python
IDENTITY, `token is eos_token_id` (line 1386), embedded as `pyIntIs`:
it matches equality only for eos ids in CPython's interned range.  The
penalty tensor, the adjust hook and the two banned-token masks are
computed by helpers outside `src/` and enter as parameters. -/
noncomputable def beamSearchStepScores {rows vocab : ℕ}
    (nextTokenLogits : Fin rows → Fin vocab → ℝ)
    (repetitionPenalty : ℝ) (penalties : Fin rows → Fin vocab → ℝ)
    (temperature : ℝ)
    (adjustLogits : (Fin rows → Fin vocab → ℝ) → Fin rows → Fin vocab → ℝ)
    (isEncDecNoSample : Bool)
    (eosTokenId : Option (Fin vocab)) (curLen minLength : ℕ)
    (useNgramBlocking : Bool) (ngramBanned : Fin rows → Fin vocab → Bool)
    (useBadWords : Bool) (badWordsBanned : Fin rows → Fin vocab → Bool) :
    Fin rows → Fin vocab → WithBot ℝ :=
  let l1 := if repetitionPenalty ≠ 1 then
      fun r v => nextTokenLogits r v * penalties r v
    else nextTokenLogits
  let l2 := if temperature ≠ 1 then fun r v => l1 r v / temperature else l1
  let l3 := if isEncDecNoSample then adjustLogits l2 else l2
  let scores0 : Fin rows → Fin vocab → WithBot ℝ :=
    fun r v => ((logSoftmax (l3 r) v : ℝ) : WithBot ℝ)
  let scores1 := match eosTokenId with
    | some eos =>
        if curLen < minLength then
          set_tensor_by_indices_to_value scores0
            (fun _ v => pyIntIs v.val eos.val) ⊥
        else scores0
    | none => scores0
  let scores2 := if useNgramBlocking then
      set_tensor_by_indices_to_value scores1 ngramBanned ⊥
    else scores1
  if useBadWords then
    set_tensor_by_indices_to_value scores2 badWordsBanned ⊥
  else scores2

/-- The per-step logit pipeline of `_generate_no_beam_search`
(lines 1668-1714): repetition penalty, then the n-gram ban, the
bad-words ban and — last in this mode — the eos ban while
`cur_len < min_length`, each written as `-inf`.  The eos mask is the
same Python-identity comprehension as in beam mode (`token is
eos_token_id`, line 1708), embedded as `pyIntIs`.  (Temperature and
top-k/top-p apply only on the sampling path, after these masks.) -/
noncomputable def noBeamStepLogits {rows vocab : ℕ}
    (nextTokenLogits : Fin rows → Fin vocab → ℝ)
    (repetitionPenalty : ℝ) (penalties : Fin rows → Fin vocab → ℝ)
    (useNgramBlocking : Bool) (ngramBanned : Fin rows → Fin vocab → Bool)
    (useBadWords : Bool) (badWordsBanned : Fin rows → Fin vocab → Bool)
    (eosTokenId : Option (Fin vocab)) (curLen minLength : ℕ) :
    Fin rows → Fin vocab → WithBot ℝ :=
  let l1 := if repetitionPenalty ≠ 1 then
      fun r v => nextTokenLogits r v * penalties r v
    else nextTokenLogits
  let s0 : Fin rows → Fin vocab → WithBot ℝ := fun r v => ((l1 r v : ℝ) : WithBot ℝ)
  let s1 := if useNgramBlocking then
      set_tensor_by_indices_to_value s0 ngramBanned ⊥
    else s0
  let s2 := if useBadWords then
      set_tensor_by_indices_to_value s1 badWordsBanned ⊥
    else s1
  match eosTokenId with
  | some eos =>
      if curLen < minLength then
        set_tensor_by_indices_to_value s2
          (fun _ v => pyIntIs v.val eos.val) ⊥
      else s2
  | none => s2

/-- Concrete zero logits over a 2-token vocabulary (interned-range eos
instance for the C8 witness). -/
def c8Logits : Fin 1 → Fin 2 → ℝ := fun _ _ => 0

/-- Concrete ban mask (nothing banned) over the 2-token vocabulary. -/
def c8NoBan : Fin 1 → Fin 2 → Bool := fun _ _ => false

/-- Concrete zero logits over a 258-token vocabulary (uncached eos id
instance for the C8 bug). -/
def c8bLogits : Fin 1 → Fin 258 → ℝ := fun _ _ => 0

/-- Concrete ban mask (nothing banned) over the 258-token vocabulary. -/
def c8bNoBan : Fin 1 → Fin 258 → Bool := fun _ _ => false

/-- Eos token id 257: the smallest int outside CPython's interned range
`[-5, 256]`. -/
def c8bEos : Fin 258 := ⟨257, by norm_num⟩

/-- C8: the min-length eos ban is implemented with Python IDENTITY
(`token is eos_token_id`, lines 1386 and 1708) rather than equality.
Under CPython's small-int interning the intended ban — the code's own
comment says "set eos token prob to zero if min_length is not reached"
— holds in both decode modes exactly for eos ids up to 256 (first two
conjuncts: post-masking eos score is `⊥`, probability weight 0, in
every row, regardless of every other mask and transformation); for any
larger eos id the mask is all-`False` and the eos score passes through
unmasked: at eos id 257 in a 258-token vocabulary, step 1 with
`min_length = 3` leaves the eos entry at its unmasked log-softmax value
with positive probability weight in beam mode, and at its raw logit
(probability weight 1, not 0) in no-beam mode. -/
theorem min_length_eos_ban_identity_bug {rows vocab : ℕ}
    (nextTokenLogits : Fin rows → Fin vocab → ℝ)
    (repetitionPenalty : ℝ) (penalties : Fin rows → Fin vocab → ℝ)
    (temperature : ℝ)
    (adjustLogits : (Fin rows → Fin vocab → ℝ) → Fin rows → Fin vocab → ℝ)
    (isEncDecNoSample : Bool)
    (eos : Fin vocab) (curLen minLength : ℕ)
    (useNgramBlocking : Bool) (ngramBanned : Fin rows → Fin vocab → Bool)
    (useBadWords : Bool) (badWordsBanned : Fin rows → Fin vocab → Bool)
    (h : curLen < minLength) (hsmall : eos.val ≤ 256) :
    (∀ r : Fin rows,
      beamSearchStepScores nextTokenLogits repetitionPenalty penalties
          temperature adjustLogits isEncDecNoSample (some eos) curLen
          minLength useNgramBlocking ngramBanned useBadWords badWordsBanned
          r eos = ⊥ ∧
      expWB (beamSearchStepScores nextTokenLogits repetitionPenalty
          penalties temperature adjustLogits isEncDecNoSample (some eos)
          curLen minLength useNgramBlocking ngramBanned useBadWords
          badWordsBanned r eos) = 0) ∧
    (∀ r : Fin rows,
      noBeamStepLogits nextTokenLogits repetitionPenalty penalties
          useNgramBlocking ngramBanned useBadWords badWordsBanned
          (some eos) curLen minLength r eos = ⊥ ∧
      expWB (noBeamStepLogits nextTokenLogits repetitionPenalty penalties
          useNgramBlocking ngramBanned useBadWords badWordsBanned
          (some eos) curLen minLength r eos) = 0) ∧
    (∀ r : Fin 1,
      beamSearchStepScores c8bLogits 1 c8bLogits 1 id false (some c8bEos)
          1 3 false c8bNoBan false c8bNoBan r c8bEos =
        ((logSoftmax (c8bLogits r) c8bEos : ℝ) : WithBot ℝ) ∧
      0 < expWB (beamSearchStepScores c8bLogits 1 c8bLogits 1 id false
          (some c8bEos) 1 3 false c8bNoBan false c8bNoBan r c8bEos)) ∧
    (∀ r : Fin 1,
      noBeamStepLogits c8bLogits 1 c8bLogits false c8bNoBan false c8bNoBan
          (some c8bEos) 1 3 r c8bEos = ((0 : ℝ) : WithBot ℝ) ∧
      expWB (noBeamStepLogits c8bLogits 1 c8bLogits false c8bNoBan false
          c8bNoBan (some c8bEos) 1 3 r c8bEos) = 1) := by
  have hmaskb : pyIntIs c8bEos.val c8bEos.val = false := by decide
  have hbeam : ∀ r : Fin rows,
      beamSearchStepScores nextTokenLogits repetitionPenalty penalties
        temperature adjustLogits isEncDecNoSample (some eos) curLen
        minLength useNgramBlocking ngramBanned useBadWords badWordsBanned
        r eos = ⊥ := by
    intro r
    simp only [beamSearchStepScores, if_pos h]
    split_ifs <;> simp [set_tensor_by_indices_to_value, pyIntIs, hsmall]
  have hnobeam : ∀ r : Fin rows,
      noBeamStepLogits nextTokenLogits repetitionPenalty penalties
        useNgramBlocking ngramBanned useBadWords badWordsBanned
        (some eos) curLen minLength r eos = ⊥ := by
    intro r
    simp only [noBeamStepLogits, if_pos h]
    split_ifs <;> simp [set_tensor_by_indices_to_value, pyIntIs, hsmall]
  have hbugBeam : ∀ r : Fin 1,
      beamSearchStepScores c8bLogits 1 c8bLogits 1 id false (some c8bEos)
        1 3 false c8bNoBan false c8bNoBan r c8bEos =
        ((logSoftmax (c8bLogits r) c8bEos : ℝ) : WithBot ℝ) := by
    intro r
    simp [beamSearchStepScores, set_tensor_by_indices_to_value, hmaskb]
  have hbugNoBeam : ∀ r : Fin 1,
      noBeamStepLogits c8bLogits 1 c8bLogits false c8bNoBan false c8bNoBan
        (some c8bEos) 1 3 r c8bEos = ((0 : ℝ) : WithBot ℝ) := by
    intro r
    simp [noBeamStepLogits, set_tensor_by_indices_to_value, hmaskb,
      c8bLogits]
  refine ⟨fun r => ⟨hbeam r, by rw [hbeam r]; simp [expWB]⟩,
    fun r => ⟨hnobeam r, by rw [hnobeam r]; simp [expWB]⟩,
    fun r => ⟨hbugBeam r, ?_⟩,
    fun r => ⟨hbugNoBeam r, ?_⟩⟩
  · rw [hbugBeam r]
    simpa [expWB] using Real.exp_pos (logSoftmax (c8bLogits r) c8bEos)
  · rw [hbugNoBeam r]
    show Real.exp 0 = 1
    exact Real.exp_zero

/-- Witness for C8: the theorem applied with the interned eos id 1 of a
2-token vocabulary at step `cur_len = 1 < min_length = 3` (the bug-side
conjuncts at eos id 257 are closed and carried along). -/
theorem min_length_eos_ban_identity_bug_witness :
    ((1 : ℕ) < 3 ∧ (1 : Fin 2).val ≤ 256) ∧
    ((∀ r : Fin 1,
      beamSearchStepScores c8Logits 1 c8Logits 1 id false (some 1) 1 3
          false c8NoBan false c8NoBan r 1 = ⊥ ∧
      expWB (beamSearchStepScores c8Logits 1 c8Logits 1 id false (some 1)
          1 3 false c8NoBan false c8NoBan r 1) = 0) ∧
    (∀ r : Fin 1,
      noBeamStepLogits c8Logits 1 c8Logits false c8NoBan false c8NoBan
          (some 1) 1 3 r 1 = ⊥ ∧
      expWB (noBeamStepLogits c8Logits 1 c8Logits false c8NoBan false
          c8NoBan (some 1) 1 3 r 1) = 0) ∧
    (∀ r : Fin 1,
      beamSearchStepScores c8bLogits 1 c8bLogits 1 id false (some c8bEos)
          1 3 false c8bNoBan false c8bNoBan r c8bEos =
        ((logSoftmax (c8bLogits r) c8bEos : ℝ) : WithBot ℝ) ∧
      0 < expWB (beamSearchStepScores c8bLogits 1 c8bLogits 1 id false
          (some c8bEos) 1 3 false c8bNoBan false c8bNoBan r c8bEos)) ∧
    (∀ r : Fin 1,
      noBeamStepLogits c8bLogits 1 c8bLogits false c8bNoBan false c8bNoBan
          (some c8bEos) 1 3 r c8bEos = ((0 : ℝ) : WithBot ℝ) ∧
      expWB (noBeamStepLogits c8bLogits 1 c8bLogits false c8bNoBan false
          c8bNoBan (some c8bEos) 1 3 r c8bEos) = 1)) :=
  ⟨⟨by decide, by decide⟩,
    min_length_eos_ban_identity_bug c8Logits 1 c8Logits 1 id false 1 1 3
      false c8NoBan false c8NoBan (by decide) (by decide)⟩

/-! ## Beam-search candidate sweep (C10) -/

/-- Whether a flattened `beam_token_id` (an index into the
`num_beams * vocab_size` flattened score row of one batch element)
lands on the eos token: `token_id = beam_token_id % vocab_size` equals
the configured eos id (lines 1489, 1493). -/
def isEosCandidate (eosTokenId : Option ℕ) (vocab beamTokenId : ℕ) : Bool :=
  match eosTokenId with
  | some e => beamTokenId % vocab == e
  | none => false

/-- The candidate sweep of `_generate_beam_search` for one not-yet-done
batch element (lines 1480-1507): walk the ranked candidates
`(beam_token_id, score)`; an eos candidate whose rank is at least
`num_beams` is skipped (`continue`), an eos candidate within the top
`num_beams` ranks is finalized into the hypotheses store (recorded here
by its score and parent beam id `beam_token_id / vocab`) and does not
occupy a beam slot; any other candidate is appended to
`next_sent_beam` as `(score, token_id, parent beam id)`; the sweep
stops as soon as `next_sent_beam` holds `num_beams` entries.  Returns
`(next_sent_beam, finalized hypotheses)`. -/
def beamSweepGo {α : Type} (eosTokenId : Option ℕ) (vocab numBeams : ℕ) :
    List (ℕ × α) → ℕ → List (α × ℕ × ℕ) → List (α × ℕ) →
      List (α × ℕ × ℕ) × List (α × ℕ)
  | [], _, nextSentBeam, hyps => (nextSentBeam, hyps)
  | (beamTokenId, score) :: rest, rank, nextSentBeam, hyps =>
    if isEosCandidate eosTokenId vocab beamTokenId then
      if numBeams ≤ rank then
        beamSweepGo eosTokenId vocab numBeams rest (rank + 1) nextSentBeam
          hyps
      else
        let hyps2 := hyps ++ [(score, beamTokenId / vocab)]
        if nextSentBeam.length = numBeams then (nextSentBeam, hyps2)
        else beamSweepGo eosTokenId vocab numBeams rest (rank + 1)
          nextSentBeam hyps2
    else
      let nsb2 := nextSentBeam ++
        [(score, beamTokenId % vocab, beamTokenId / vocab)]
      if nsb2.length = numBeams then (nsb2, hyps)
      else beamSweepGo eosTokenId vocab numBeams rest (rank + 1) nsb2 hyps

/-- The full sweep, started at rank 0 with empty beam and hypothesis
accumulators. -/
def beamSweep {α : Type} (eosTokenId : Option ℕ) (vocab numBeams : ℕ)
    (cands : List (ℕ × α)) : List (α × ℕ × ℕ) × List (α × ℕ) :=
  beamSweepGo eosTokenId vocab numBeams cands 0 [] []

lemma length_filter_add_length_filter_not {α : Type} (p : α → Bool) :
    ∀ l : List α,
      (l.filter p).length + (l.filter fun a => !(p a)).length = l.length := by
  intro l
  induction l with
  | nil => rfl
  | cons a l ih =>
    by_cases h : p a <;> simp [List.filter_cons, h] <;> omega

lemma nodup_lt_length_le {B : ℕ} {l : List ℕ} (hn : l.Nodup)
    (hlt : ∀ x ∈ l, x < B) : l.length ≤ B := by
  have hsub : l.toFinset ⊆ Finset.range B := fun x hx =>
    Finset.mem_range.mpr (hlt x (List.mem_toFinset.mp hx))
  have := Finset.card_le_card hsub
  rwa [List.toFinset_card_of_nodup hn, Finset.card_range] at this

lemma beamSweepGo_length {α : Type} (eosTokenId : Option ℕ)
    (vocab numBeams : ℕ) :
    ∀ (l : List (ℕ × α)) (rank : ℕ) (nsb : List (α × ℕ × ℕ))
      (hyps : List (α × ℕ)), nsb.length < numBeams →
      ((beamSweepGo eosTokenId vocab numBeams l rank nsb hyps).1).length =
        min numBeams (nsb.length +
          (l.filter fun c => !(isEosCandidate eosTokenId vocab c.1)).length) := by
  intro l
  induction l with
  | nil =>
    intro rank nsb hyps hlt
    simp only [beamSweepGo, List.filter_nil, List.length_nil, Nat.add_zero]
    omega
  | cons c rest ih =>
    intro rank nsb hyps hlt
    obtain ⟨beamTokenId, score⟩ := c
    by_cases heos : isEosCandidate eosTokenId vocab beamTokenId
    · by_cases hrank : numBeams ≤ rank
      · rw [show beamSweepGo eosTokenId vocab numBeams
            ((beamTokenId, score) :: rest) rank nsb hyps =
            beamSweepGo eosTokenId vocab numBeams rest (rank + 1) nsb hyps
          from by simp [beamSweepGo, heos, hrank]]
        rw [ih (rank + 1) nsb hyps hlt]
        simp [List.filter_cons, heos]
      · rw [show beamSweepGo eosTokenId vocab numBeams
            ((beamTokenId, score) :: rest) rank nsb hyps =
            beamSweepGo eosTokenId vocab numBeams rest (rank + 1) nsb
              (hyps ++ [(score, beamTokenId / vocab)])
          from by simp [beamSweepGo, heos, hrank, Nat.ne_of_lt hlt]]
        rw [ih (rank + 1) nsb _ hlt]
        simp [List.filter_cons, heos]
    · by_cases hfull : nsb.length + 1 = numBeams
      · rw [show beamSweepGo eosTokenId vocab numBeams
            ((beamTokenId, score) :: rest) rank nsb hyps =
            (nsb ++ [(score, beamTokenId % vocab, beamTokenId / vocab)],
              hyps)
          from by simp [beamSweepGo, heos, hfull]]
        simp only [List.length_append, List.length_cons, List.length_nil]
        rw [List.filter_cons]
        simp only [heos, Bool.not_false, if_pos]
        simp only [List.length_cons]
        omega
      · have hlt2 : (nsb ++
            [(score, beamTokenId % vocab, beamTokenId / vocab)]).length <
            numBeams := by
          simp only [List.length_append, List.length_cons, List.length_nil]
          omega
        rw [show beamSweepGo eosTokenId vocab numBeams
            ((beamTokenId, score) :: rest) rank nsb hyps =
            beamSweepGo eosTokenId vocab numBeams rest (rank + 1)
              (nsb ++ [(score, beamTokenId % vocab, beamTokenId / vocab)])
              hyps
          from by simp [beamSweepGo, heos, hfull]]
        rw [ih (rank + 1) _ hyps hlt2]
        rw [List.filter_cons]
        simp only [heos, Bool.not_false, if_pos, List.length_append,
          List.length_cons, List.length_nil]
        omega

lemma eos_candidate_count_le {α : Type} (eosTokenId : Option ℕ)
    {vocab numBeams : ℕ} (cands : List (ℕ × α)) (hv : 0 < vocab)
    (hlt : ∀ c ∈ cands, c.1 < numBeams * vocab)
    (hnodup : (cands.map Prod.fst).Nodup) :
    (cands.filter fun c => isEosCandidate eosTokenId vocab c.1).length ≤
      numBeams := by
  match eosTokenId with
  | none => simp [isEosCandidate]
  | some e =>
    set eosCands := cands.filter fun c => isEosCandidate (some e) vocab c.1
      with hec
    have hids : (eosCands.map Prod.fst).Nodup :=
      List.Sublist.nodup (List.Sublist.map Prod.fst (List.filter_sublist _))
        hnodup
    have hmod : ∀ x ∈ eosCands.map Prod.fst, x % vocab = e := by
      intro x hx
      obtain ⟨c, hc, rfl⟩ := List.mem_map.mp hx
      have := List.of_mem_filter hc
      simpa [isEosCandidate] using this
    have hbound : ∀ x ∈ eosCands.map Prod.fst, x < numBeams * vocab := by
      intro x hx
      obtain ⟨c, hc, rfl⟩ := List.mem_map.mp hx
      exact hlt c (List.mem_of_mem_filter hc)
    have hdivNodup : ((eosCands.map Prod.fst).map (· / vocab)).Nodup := by
      refine List.Nodup.map_on ?_ hids
      intro x hx y hy hxy
      have hxy2 : x / vocab = y / vocab := hxy
      have hx1 : x % vocab = e := hmod x hx
      have hy1 : y % vocab = e := hmod y hy
      have hdx : vocab * (x / vocab) + x % vocab = x := Nat.div_add_mod x vocab
      have hdy : vocab * (y / vocab) + y % vocab = y := Nat.div_add_mod y vocab
      rw [hxy2, hx1] at hdx
      rw [hy1] at hdy
      omega
    have hdivLt : ∀ z ∈ (eosCands.map Prod.fst).map (· / vocab),
        z < numBeams := by
      intro z hz
      obtain ⟨x, hx, rfl⟩ := List.mem_map.mp hz
      exact (Nat.div_lt_iff_lt_mul hv).mpr (hbound x hx)
    have := nodup_lt_length_le hdivNodup hdivLt
    simpa using this

/-- C10: the candidate sweep of `_generate_beam_search` always selects
exactly `num_beams` live continuations from the `2*num_beams` ranked
candidates — the `"Beam should always be full"` assertion never fails —
because the `2*num_beams` candidate ids are distinct indices below
`num_beams * vocab_size`, of which at most `num_beams` (one per parent
beam) can land on the eos token; this needs a vocabulary of at least 2
tokens so that `2*num_beams` distinct candidates exist at all. -/
theorem beam_sweep_always_full {α : Type} (eosTokenId : Option ℕ)
    (vocab numBeams : ℕ) (cands : List (ℕ × α))
    (hv : 2 ≤ vocab) (hB : 0 < numBeams)
    (hlen : cands.length = 2 * numBeams)
    (hlt : ∀ c ∈ cands, c.1 < numBeams * vocab)
    (hnodup : (cands.map Prod.fst).Nodup) :
    ((beamSweep eosTokenId vocab numBeams cands).1).length = numBeams := by
  rw [beamSweep, beamSweepGo_length eosTokenId vocab numBeams cands 0 [] []
    (by simpa using hB)]
  have hsplit := length_filter_add_length_filter_not
    (fun c : ℕ × α => isEosCandidate eosTokenId vocab c.1) cands
  have hle := eos_candidate_count_le eosTokenId cands
    (by omega : 0 < vocab) hlt hnodup
  simp only [List.length_nil, Nat.zero_add]
  omega

/-- Witness for C10: one beam, a 2-token vocabulary with eos id 1, and
the two ranked candidates `(0, ·)` and `(1, ·)`: the sweep fills the
single beam slot. -/
theorem beam_sweep_always_full_witness :
    ((beamSweep (some 1) 2 1 [(0, (0 : ℕ)), (1, 0)]).1).length = 1 :=
  beam_sweep_always_full (some 1) 2 1 [(0, 0), (1, 0)]
    (by decide) (by decide) (by decide) (by decide) (by decide)

/-! ## RAG-Sequence thorough decoding: dedup and rerank (C9) -/

/-- The deduplication of `TFRagSequenceForGeneration.generate`
(line 2247): `{str(k.numpy().tolist()): k for k in output_sequences}`
keys the candidates by their token lists, so the dict values are the
distinct candidate sequences in order of first occurrence. -/
def dedupFirst {σ : Type} [DecidableEq σ] (l : List σ) : List σ :=
  match l with
  | [] => []
  | x :: xs => x :: dedupFirst (xs.filter fun y => y ≠ x)
termination_by l.length
decreasing_by
  simp only [List.length_cons]
  exact Nat.lt_succ_of_le (List.length_filter_le _ _)

/-- The ranking used by `tf.math.top_k`: a candidate index precedes
another when its value is larger, with ties broken toward the lower
index. -/
def topKRank {α : Type} [LinearOrder α] (d : α) (vals : List α)
    (i j : ℕ) : Prop :=
  vals.getD j d < vals.getD i d ∨ (vals.getD i d = vals.getD j d ∧ i ≤ j)

instance {α : Type} [LinearOrder α] (d : α) (vals : List α) :
    DecidableRel (topKRank d vals) := fun i j => by
  unfold topKRank
  infer_instance

instance {α : Type} [LinearOrder α] (d : α) (vals : List α) :
    IsTotal ℕ (topKRank d vals) := by
  constructor
  intro i j
  rcases lt_trichotomy (vals.getD i d) (vals.getD j d) with h | h | h
  · exact Or.inr (Or.inl h)
  · rcases Nat.le_total i j with hij | hij
    · exact Or.inl (Or.inr ⟨h, hij⟩)
    · exact Or.inr (Or.inr ⟨h.symm, hij⟩)
  · exact Or.inl (Or.inl h)

instance {α : Type} [LinearOrder α] (d : α) (vals : List α) :
    IsTrans ℕ (topKRank d vals) := by
  constructor
  intro i j k hij hjk
  rcases hij with h1 | ⟨h1, h1le⟩
  · rcases hjk with h2 | ⟨h2, _⟩
    · exact Or.inl (h2.trans h1)
    · exact Or.inl (h2 ▸ h1)
  · rcases hjk with h2 | ⟨h2, h2le⟩
    · exact Or.inl (h1.symm ▸ h2)
    · exact Or.inr ⟨h1.trans h2, h1le.trans h2le⟩

/-- Embedding of `tf.math.top_k(vals, k)[1]`: the indices of the `k` largest entries,
in descending value order with ties toward the lower index, obtained by
sorting all indices by `topKRank` and keeping the first `k`. -/
def topKIndices {α : Type} [LinearOrder α] (d : α) (vals : List α)
    (k : ℕ) : List ℕ :=
  (List.insertionSort (topKRank d vals) (List.range vals.length)).take k

/-- One iteration of the per-query loop of
`TFRagSequenceForGeneration.generate` (lines 2237-2289), for a single
query: the generator's own beam search produced `candidateSequences`
(up to `n_docs * num_beams` token sequences); deduplicate them when
`do_deduplication` is set; score each surviving candidate with the
forward pass (the per-candidate sequence NLL enters as the abstract
function `nllOf`); keep the `num_doc_return_sequences` candidates with
the highest `-loss` via `tf.math.top_k` (line 2284). -/
def ragSequenceGenerateOne {α : Type} [LinearOrderedField α]
    (doDeduplication : Bool) (numDocReturnSequences : ℕ)
    (candidateSequences : List (List ℕ)) (nllOf : List ℕ → α) :
    List (List ℕ) :=
  let outputSequences :=
    if doDeduplication then dedupFirst candidateSequences
    else candidateSequences
  let negLoss := outputSequences.map fun s => -(nllOf s)
  let topCandInds := topKIndices 0 negLoss numDocReturnSequences
  topCandInds.map fun i => outputSequences.getD i []

lemma dedupFirst_mem {σ : Type} [DecidableEq σ] (l : List σ) (s : σ) :
    s ∈ dedupFirst l ↔ s ∈ l := by
  induction l using dedupFirst.induct with
  | case1 => simp [dedupFirst]
  | case2 x xs ih =>
    rw [dedupFirst]
    constructor
    · intro h
      rcases List.mem_cons.mp h with h | h
      · exact h ▸ List.mem_cons_self x xs
      · exact List.mem_cons_of_mem x
          (List.mem_of_mem_filter (ih.mp h))
    · intro h
      rcases List.mem_cons.mp h with h | h
      · exact h ▸ List.mem_cons_self x _
      · by_cases hx : s = x
        · exact hx ▸ List.mem_cons_self x _
        · exact List.mem_cons_of_mem x
            (ih.mpr (List.mem_filter.mpr ⟨h, by simpa using hx⟩))

lemma dedupFirst_nodup {σ : Type} [DecidableEq σ] (l : List σ) :
    (dedupFirst l).Nodup := by
  induction l using dedupFirst.induct with
  | case1 => simp [dedupFirst]
  | case2 x xs ih =>
    rw [dedupFirst]
    refine List.nodup_cons.mpr ⟨?_, ih⟩
    intro hmem
    have := List.of_mem_filter ((dedupFirst_mem _ x).mp hmem)
    simp at this

lemma dedupFirst_sublist {σ : Type} [DecidableEq σ] (l : List σ) :
    (dedupFirst l).Sublist l := by
  induction l using dedupFirst.induct with
  | case1 => simp [dedupFirst]
  | case2 x xs ih =>
    rw [dedupFirst]
    exact List.Sublist.cons₂ x (ih.trans (List.filter_sublist xs))

lemma topK_selection {α : Type} [LinearOrderedField α]
    (scored : List (List ℕ)) (nllOf : List ℕ → α) (k : ℕ) :
    ((topKIndices 0 (scored.map fun s => -(nllOf s)) k).map
        fun i => scored.getD i []).length = min k scored.length ∧
    ∃ idxs : List ℕ, idxs.Nodup ∧ (∀ i ∈ idxs, i < scored.length) ∧
      (topKIndices 0 (scored.map fun s => -(nllOf s)) k).map
          (fun i => scored.getD i []) =
        idxs.map (fun i => scored.getD i []) ∧
      (∀ i ∈ idxs, ∀ j, j < scored.length → j ∉ idxs →
        nllOf (scored.getD i []) ≤ nllOf (scored.getD j [])) := by
  set vals := scored.map fun s => -(nllOf s) with hvals
  have hvlen : vals.length = scored.length := List.length_map _ _
  set sorted := List.insertionSort (topKRank 0 vals)
    (List.range vals.length) with hsorted
  have hperm : sorted.Perm (List.range vals.length) :=
    List.perm_insertionSort _ _
  have hslen : sorted.length = vals.length := by
    rw [hperm.length_eq, List.length_range]
  have hsnodup : sorted.Nodup := hperm.nodup_iff.mpr (List.nodup_range _)
  have hsmem : ∀ j, j ∈ sorted ↔ j < vals.length := by
    intro j
    rw [hperm.mem_iff, List.mem_range]
  have hsort : List.Sorted (topKRank 0 vals) sorted :=
    List.sorted_insertionSort _ _
  have hvalsD : ∀ i, i < scored.length →
      vals.getD i 0 = -(nllOf (scored.getD i [])) := by
    intro i hi
    exact getD_map_of_lt (fun s => -(nllOf s)) hi [] 0
  refine ⟨?_, sorted.take k, ?_, ?_, rfl, ?_⟩
  · rw [List.length_map, topKIndices, List.length_take, hslen, hvlen]
  · exact (List.take_sublist k sorted).nodup hsnodup
  · intro i hi
    have : i ∈ sorted := (List.take_sublist k sorted).mem hi
    rw [hsmem i, hvlen] at this
    exact this
  · intro i hi j hj hjnot
    have hjmem : j ∈ sorted := (hsmem j).mpr (hvlen ▸ hj)
    have hjdrop : j ∈ sorted.drop k := by
      rcases List.mem_append.mp
        ((List.take_append_drop k sorted) ▸ hjmem) with h | h
      · exact absurd h hjnot
      · exact h
    have hpair := (List.pairwise_append.mp
      ((List.take_append_drop k sorted) ▸ hsort)).2.2
    have hrank : topKRank 0 vals i j := hpair i hi j hjdrop
    have hilt : i < scored.length := by
      have : i ∈ sorted := (List.take_sublist k sorted).mem hi
      rw [hsmem i, hvlen] at this
      exact this
    rcases hrank with h | ⟨h, _⟩
    · rw [hvalsD j hj, hvalsD i hilt] at h
      exact le_of_lt (neg_lt_neg_iff.mp h)
    · rw [hvalsD j hj, hvalsD i hilt] at h
      exact le_of_eq (neg_injective h)

/-- C9: in the per-query rerank loop of
`TFRagSequenceForGeneration.generate`, `do_deduplication=True` scores
exactly the distinct candidate sequences in first-occurrence order
(`dedupFirst` is duplicate-free, a sublist of the candidates, and keeps
exactly their elements), `do_deduplication=False` scores every
candidate, and in both cases the returned hypotheses are the
`num_return_sequences` candidates with the smallest marginalized NLL
(every returned candidate's NLL is at most every non-returned one's). -/
theorem rag_sequence_dedup_and_rerank {α : Type} [LinearOrderedField α]
    (cands : List (List ℕ)) (nllOf : List ℕ → α) (k : ℕ) :
    ((dedupFirst cands).Nodup ∧ (dedupFirst cands).Sublist cands ∧
      (∀ s, s ∈ dedupFirst cands ↔ s ∈ cands)) ∧
    (∀ dd : Bool,
      (ragSequenceGenerateOne dd k cands nllOf).length =
        min k (if dd then dedupFirst cands else cands).length ∧
      ∃ idxs : List ℕ, idxs.Nodup ∧
        (∀ i ∈ idxs, i < (if dd then dedupFirst cands else cands).length) ∧
        ragSequenceGenerateOne dd k cands nllOf =
          idxs.map (fun i =>
            (if dd then dedupFirst cands else cands).getD i []) ∧
        (∀ i ∈ idxs, ∀ j,
          j < (if dd then dedupFirst cands else cands).length →
          j ∉ idxs →
          nllOf ((if dd then dedupFirst cands else cands).getD i []) ≤
            nllOf ((if dd then dedupFirst cands else cands).getD j []))) := by
  refine ⟨⟨dedupFirst_nodup cands, dedupFirst_sublist cands,
    fun s => dedupFirst_mem cands s⟩, ?_⟩
  intro dd
  have h := topK_selection (if dd then dedupFirst cands else cands) nllOf k
  cases dd <;> simpa [ragSequenceGenerateOne] using h

/-! ## Sequence-level marginalized NLL (C2) -/

lemma exp_logSoftmax_eq_softmaxProb {n : ℕ} (hn : 0 < n) (f : Fin n → ℝ)
    (i : Fin n) : Real.exp (logSoftmax f i) = softmaxProb f i :=
  exp_logSoftmax hn f i

lemma ragLogprobs_split {batch ndocs tl vocab : ℕ}
    (seqLogits : Fin (batch * ndocs) → Fin tl → Fin vocab → ℝ)
    (docScores : Fin batch → Fin ndocs → ℝ)
    (b : Fin batch) (d : Fin ndocs) (p : Fin tl) (v : Fin vocab) :
    TFRagSequence.ragLogprobs seqLogits docScores b d p v =
      logSoftmax (seqLogits (flatIdx b d) p) v +
        (if p.val = 1 then logSoftmax (docScores b) d else 0) := by
  unfold TFRagSequence.ragLogprobs
  split_ifs <;> simp

lemma llMasked_eq {batch ndocs tl vocab : ℕ} (padTokenId : Fin vocab)
    (seqLogits : Fin (batch * ndocs) → Fin tl → Fin vocab → ℝ)
    (docScores : Fin batch → Fin ndocs → ℝ)
    (target2 : Fin batch → Fin tl → Fin vocab)
    (b : Fin batch) (d : Fin ndocs) (p : Fin tl) :
    TFRagSequence.llMasked padTokenId seqLogits docScores target2 b d p =
      if target2 b p = padTokenId then 0
      else TFRagSequence.ragLogprobs seqLogits docScores b d p
        (target2 b p) := by
  unfold TFRagSequence.llMasked
  by_cases hany : ∃ b' p', target2 b' p' = padTokenId
  · simp only [if_pos hany]
  · push_neg at hany
    simp only [if_neg (by push_neg; exact hany :
      ¬ ∃ b' p', target2 b' p' = padTokenId)]
    rw [if_neg (hany b p)]

lemma llSum_nonpad {batch ndocs tl vocab : ℕ} (padTokenId : Fin vocab)
    (bosTokenId : Option (Fin vocab))
    (seqLogits : Fin (batch * ndocs) → Fin tl → Fin vocab → ℝ)
    (docScores : Fin batch → Fin ndocs → ℝ)
    (target2 : Fin batch → Fin tl → Fin vocab)
    (h1 : 1 < tl) (b : Fin batch) (d : Fin ndocs)
    (hpad : target2 b ⟨1, h1⟩ ≠ padTokenId) :
    TFRagSequence.llSum padTokenId bosTokenId seqLogits docScores target2
        false b d =
      logSoftmax (docScores b) d +
        ∑ p ∈ Finset.univ.filter (fun p : Fin tl => target2 b p ≠ padTokenId),
          logSoftmax (seqLogits (flatIdx b d) p) (target2 b p) := by
  unfold TFRagSequence.llSum
  simp only [Bool.false_and, Bool.false_eq_true, if_false]
  calc ∑ p, TFRagSequence.llMasked padTokenId seqLogits docScores target2
        b d p
      = ∑ p, if target2 b p = padTokenId then 0
          else TFRagSequence.ragLogprobs seqLogits docScores b d p
            (target2 b p) :=
        Finset.sum_congr rfl fun p _ =>
          llMasked_eq padTokenId seqLogits docScores target2 b d p
    _ = ∑ p ∈ Finset.univ.filter
          (fun p : Fin tl => target2 b p ≠ padTokenId),
          TFRagSequence.ragLogprobs seqLogits docScores b d p
            (target2 b p) := by
        rw [Finset.sum_filter]
        refine Finset.sum_congr rfl fun p _ => ?_
        by_cases hp : target2 b p = padTokenId <;> simp [hp]
    _ = ∑ p ∈ Finset.univ.filter
          (fun p : Fin tl => target2 b p ≠ padTokenId),
          (logSoftmax (seqLogits (flatIdx b d) p) (target2 b p) +
            if p.val = 1 then logSoftmax (docScores b) d else 0) :=
        Finset.sum_congr rfl fun p _ =>
          ragLogprobs_split seqLogits docScores b d p (target2 b p)
    _ = (∑ p ∈ Finset.univ.filter
          (fun p : Fin tl => target2 b p ≠ padTokenId),
          logSoftmax (seqLogits (flatIdx b d) p) (target2 b p)) +
        (∑ p ∈ Finset.univ.filter
          (fun p : Fin tl => target2 b p ≠ padTokenId),
          if p.val = 1 then logSoftmax (docScores b) d else 0) :=
        Finset.sum_add_distrib
    _ = logSoftmax (docScores b) d +
        ∑ p ∈ Finset.univ.filter
          (fun p : Fin tl => target2 b p ≠ padTokenId),
          logSoftmax (seqLogits (flatIdx b d) p) (target2 b p) := by
        have hdoc : (∑ p ∈ Finset.univ.filter
            (fun p : Fin tl => target2 b p ≠ padTokenId),
            if p.val = 1 then logSoftmax (docScores b) d else 0) =
            logSoftmax (docScores b) d := by
          calc (∑ p ∈ Finset.univ.filter
              (fun p : Fin tl => target2 b p ≠ padTokenId),
              if p.val = 1 then logSoftmax (docScores b) d else 0)
              = ∑ p ∈ Finset.univ.filter
                (fun p : Fin tl => target2 b p ≠ padTokenId),
                if p = ⟨1, h1⟩ then logSoftmax (docScores b) d else 0 := by
                refine Finset.sum_congr rfl fun p _ => ?_
                by_cases hp : (p : ℕ) = 1
                · rw [if_pos hp, if_pos (Fin.ext hp)]
                · rw [if_neg hp, if_neg (fun hc => hp (by rw [hc]))]
            _ = logSoftmax (docScores b) d := by
                rw [Finset.sum_ite_eq' _ (⟨1, h1⟩ : Fin tl)
                  (fun _ => logSoftmax (docScores b) d)]
                exact if_pos (Finset.mem_filter.mpr
                  ⟨Finset.mem_univ (⟨1, h1⟩ : Fin tl), hpad⟩)
        rw [hdoc, add_comm]

/-- C2 (amended): with `epsilon = 0`, `reduce_loss = False` and
`exclude_bos_score = False`, and provided the SECOND position of the
left-shifted target is not the pad token for each batch element (the
doc-score term is added at that position, so pad masking would erase
it), `TFRagSequenceForGeneration.get_nll` returns, per batch element,
minus the log-sum-exp over documents of (doc log-softmax + sum of the
per-token log-likelihood over the non-pad positions of the left-shifted
target), and this equals the brute-force non-log-space reference
`-log Σ_d softmax(doc) · Π_(non-pad p) softmax(token)` exactly. -/
theorem seq_get_nll_marginalization {batch ndocs tl vocab : ℕ}
    (padTokenId : Fin vocab) (bosTokenId : Option (Fin vocab))
    (seqLogits : Fin (batch * ndocs) → Fin tl → Fin vocab → ℝ)
    (docScores : Fin batch → Fin ndocs → ℝ)
    (target : Fin batch → Fin tl → Fin vocab)
    (h1 : 1 < tl)
    (hpad : ∀ b, shiftLeft padTokenId target b ⟨1, h1⟩ ≠ padTokenId) :
    TFRagSequence.get_nll padTokenId bosTokenId seqLogits docScores target
        false 0 false =
      Tensor01.vector (fun b =>
        -(logSumExp fun d => logSoftmax (docScores b) d +
          ∑ p ∈ Finset.univ.filter (fun p : Fin tl =>
              shiftLeft padTokenId target b p ≠ padTokenId),
            logSoftmax (seqLogits (flatIdx b d) p)
              (shiftLeft padTokenId target b p))) ∧
    TFRagSequence.get_nll padTokenId bosTokenId seqLogits docScores target
        false 0 false =
      Tensor01.vector (fun b =>
        -(Real.log (∑ d, softmaxProb (docScores b) d *
          ∏ p ∈ Finset.univ.filter (fun p : Fin tl =>
              shiftLeft padTokenId target b p ≠ padTokenId),
            softmaxProb (seqLogits (flatIdx b d) p)
              (shiftLeft padTokenId target b p)))) := by
  have hv : 0 < vocab := padTokenId.pos
  set t2 := shiftLeft padTokenId target with ht2
  have hvec : TFRagSequence.get_nll padTokenId bosTokenId seqLogits
      docScores target false 0 false =
      Tensor01.vector (fun b => TFRagSequence.nllVec padTokenId bosTokenId
        seqLogits docScores t2 false b) := by
    unfold TFRagSequence.get_nll
    simp only [Bool.false_eq_true, if_false]
    congr 1
    funext b
    ring
  have hnll : ∀ b, TFRagSequence.nllVec padTokenId bosTokenId seqLogits
      docScores t2 false b =
      -(logSumExp fun d => logSoftmax (docScores b) d +
        ∑ p ∈ Finset.univ.filter
            (fun p : Fin tl => t2 b p ≠ padTokenId),
          logSoftmax (seqLogits (flatIdx b d) p) (t2 b p)) := by
    intro b
    unfold TFRagSequence.nllVec
    have hfun : (fun d => TFRagSequence.llSum padTokenId bosTokenId
        seqLogits docScores t2 false b d) =
        (fun d => logSoftmax (docScores b) d +
          ∑ p ∈ Finset.univ.filter
              (fun p : Fin tl => t2 b p ≠ padTokenId),
            logSoftmax (seqLogits (flatIdx b d) p) (t2 b p)) :=
      funext fun d => llSum_nonpad padTokenId bosTokenId seqLogits
        docScores t2 h1 b d (hpad b)
    rw [hfun]
  refine ⟨by rw [hvec]; exact congrArg _ (funext fun b => hnll b), ?_⟩
  rw [hvec]
  refine congrArg _ (funext fun b => ?_)
  rw [hnll b]
  congr 1
  unfold logSumExp
  congr 1
  refine Finset.sum_congr rfl fun d _ => ?_
  rw [Real.exp_add, exp_logSoftmax_eq_softmaxProb d.pos (docScores b) d,
    Real.exp_sum]
  congr 1
  exact Finset.prod_congr rfl fun p _ =>
    exp_logSoftmax_eq_softmaxProb hv (seqLogits (flatIdx b d) p) (t2 b p)

/-- Concrete generator logits for the C2 witness (1 batch element, 1
document, target length 3, 2-token vocabulary, all logits zero). -/
def c2wSeqLogits : Fin (1 * 1) → Fin 3 → Fin 2 → ℝ := fun _ _ _ => 0

/-- Concrete doc scores for the C2 witness. -/
def c2wDocScores : Fin 1 → Fin 1 → ℝ := fun _ _ => 0

/-- Concrete target (all tokens = 1, never the pad token 0) for the C2
witness; its left shift is `[1, 1, 0]`, whose second position is
non-pad. -/
def c2wTarget : Fin 1 → Fin 3 → Fin 2 := fun _ _ => 1

/-- Witness for C2: the amended theorem applied at a concrete input
whose left-shifted target has a non-pad second position. -/
theorem seq_get_nll_marginalization_witness :
    (1 : ℕ) < 3 ∧
    (∀ b : Fin 1, shiftLeft (0 : Fin 2) c2wTarget b 1 ≠ 0) ∧
    (TFRagSequence.get_nll (0 : Fin 2) none c2wSeqLogits c2wDocScores
        c2wTarget false 0 false =
      Tensor01.vector (fun b =>
        -(logSumExp fun d => logSoftmax (c2wDocScores b) d +
          ∑ p ∈ Finset.univ.filter (fun p : Fin 3 =>
              shiftLeft (0 : Fin 2) c2wTarget b p ≠ 0),
            logSoftmax (c2wSeqLogits (flatIdx b d) p)
              (shiftLeft (0 : Fin 2) c2wTarget b p))) ∧
    TFRagSequence.get_nll (0 : Fin 2) none c2wSeqLogits c2wDocScores
        c2wTarget false 0 false =
      Tensor01.vector (fun b =>
        -(Real.log (∑ d, softmaxProb (c2wDocScores b) d *
          ∏ p ∈ Finset.univ.filter (fun p : Fin 3 =>
              shiftLeft (0 : Fin 2) c2wTarget b p ≠ 0),
            softmaxProb (c2wSeqLogits (flatIdx b d) p)
              (shiftLeft (0 : Fin 2) c2wTarget b p))))) :=
  ⟨by decide, by decide,
    seq_get_nll_marginalization (0 : Fin 2) none c2wSeqLogits c2wDocScores
      c2wTarget (by decide) (by decide)⟩

/-- Concrete generator logits for the C2 counterexample (1 batch
element, 2 documents, target length 2, 2-token vocabulary, all logits
zero). -/
def c2xSeqLogits : Fin (1 * 2) → Fin 2 → Fin 2 → ℝ := fun _ _ _ => 0

/-- Concrete (uniform) doc scores for the C2 counterexample. -/
def c2xDocScores : Fin 1 → Fin 2 → ℝ := fun _ _ => 0

/-- Concrete target for the C2 counterexample: all tokens 1, so the
left-shifted target is `[1, 0]` — its SECOND position is the pad
token. -/
def c2xTarget : Fin 1 → Fin 2 → Fin 2 := fun _ _ => 1

lemma c2x_logSoftmax_zero (i : Fin 2) :
    logSoftmax (fun _ : Fin 2 => (0 : ℝ)) i = -(Real.log 2) := by
  simp [logSoftmax, Fin.sum_univ_two, Real.exp_zero]

/-- C2 counterexample: at a target whose left-shifted second position is
the pad token, the per-batch-element loss returned by the sequence-level
`get_nll` (with epsilon 0, no reduction, no bos exclusion) is `0`,
whereas the claimed formula — doc log-softmax always added inside the
log-sum-exp — evaluates to `log 2 ≠ 0`: pad masking erases the
doc-score term the source adds at position 1. -/
theorem seq_get_nll_pad_second_position_counterexample :
    ∃ v : Fin 1 → ℝ,
      TFRagSequence.get_nll (0 : Fin 2) none c2xSeqLogits c2xDocScores
          c2xTarget false 0 false = Tensor01.vector v ∧
      v 0 = 0 ∧
      (-(logSumExp fun d : Fin 2 =>
          logSoftmax (c2xDocScores 0) d +
            ∑ p ∈ Finset.univ.filter (fun p : Fin 2 =>
                shiftLeft (0 : Fin 2) c2xTarget 0 p ≠ 0),
              logSoftmax (c2xSeqLogits (flatIdx 0 d) p)
                (shiftLeft (0 : Fin 2) c2xTarget 0 p))) = Real.log 2 ∧
      (0 : ℝ) ≠ Real.log 2 := by
  have hlog2pos : (0 : ℝ) < Real.log 2 := Real.log_pos (by norm_num)
  have hexp : Real.exp (-(Real.log 2)) = 2⁻¹ := by
    rw [Real.exp_neg, Real.exp_log two_pos]
  refine ⟨_, rfl, ?_, ?_, ne_of_lt hlog2pos⟩
  · -- the code's value at batch element 0 is 0
    have ht0 : shiftLeft (0 : Fin 2) c2xTarget 0 0 = 1 := by decide
    have ht1 : shiftLeft (0 : Fin 2) c2xTarget 0 1 = 0 := by decide
    have hrow : ∀ (r : Fin (1 * 2)) (p : Fin 2),
        c2xSeqLogits r p = fun _ => (0 : ℝ) := fun _ _ => rfl
    have hm0 : ∀ d : Fin 2, TFRagSequence.llMasked (0 : Fin 2)
        c2xSeqLogits c2xDocScores (shiftLeft (0 : Fin 2) c2xTarget)
        0 d 0 = -(Real.log 2) := by
      intro d
      rw [llMasked_eq, if_neg (by rw [ht0]; decide)]
      unfold TFRagSequence.ragLogprobs
      rw [ht0, hrow]
      simp only [Fin.val_zero]
      rw [if_neg (by norm_num : ¬ (0 : ℕ) = 1)]
      exact c2x_logSoftmax_zero _
    have hm1 : ∀ d : Fin 2, TFRagSequence.llMasked (0 : Fin 2)
        c2xSeqLogits c2xDocScores (shiftLeft (0 : Fin 2) c2xTarget)
        0 d 1 = 0 := by
      intro d
      rw [llMasked_eq, if_pos ht1]
    have hll : ∀ d : Fin 2, TFRagSequence.llSum (0 : Fin 2) none
        c2xSeqLogits c2xDocScores (shiftLeft (0 : Fin 2) c2xTarget)
        false 0 d = -(Real.log 2) := by
      intro d
      unfold TFRagSequence.llSum
      simp only [Bool.false_and, Bool.false_eq_true, if_false]
      rw [Fin.sum_univ_two, hm0 d, hm1 d, add_zero]
    have hlse : logSumExp (fun d : Fin 2 => TFRagSequence.llSum
        (0 : Fin 2) none c2xSeqLogits c2xDocScores
        (shiftLeft (0 : Fin 2) c2xTarget) false 0 d) = 0 := by
      rw [show (fun d : Fin 2 => TFRagSequence.llSum (0 : Fin 2) none
          c2xSeqLogits c2xDocScores (shiftLeft (0 : Fin 2) c2xTarget)
          false 0 d) = fun _ : Fin 2 => -(Real.log 2) from funext hll]
      unfold logSumExp
      rw [Fin.sum_univ_two, hexp]
      norm_num
    show (1 - (0 : ℝ)) * TFRagSequence.nllVec (0 : Fin 2) none
        c2xSeqLogits c2xDocScores (shiftLeft (0 : Fin 2) c2xTarget)
        false 0 + ((0 : ℝ) / (2 : ℕ)) * TFRagSequence.smoothVec
        (0 : Fin 2) c2xSeqLogits c2xDocScores
        (shiftLeft (0 : Fin 2) c2xTarget) 0 = 0
    unfold TFRagSequence.nllVec
    rw [hlse]
    ring
  · -- the claimed formula evaluates to log 2
    have hfilter : Finset.univ.filter (fun p : Fin 2 =>
        shiftLeft (0 : Fin 2) c2xTarget 0 p ≠ 0) = {0} := by decide
    have htok : ∀ d : Fin 2,
        logSoftmax (c2xDocScores 0) d +
          ∑ p ∈ Finset.univ.filter (fun p : Fin 2 =>
              shiftLeft (0 : Fin 2) c2xTarget 0 p ≠ 0),
            logSoftmax (c2xSeqLogits (flatIdx 0 d) p)
              (shiftLeft (0 : Fin 2) c2xTarget 0 p) =
          -(Real.log 2) + -(Real.log 2) := by
      intro d
      rw [hfilter, Finset.sum_singleton]
      have h1 : logSoftmax (c2xDocScores 0) d = -(Real.log 2) :=
        c2x_logSoftmax_zero d
      have h2 : logSoftmax (c2xSeqLogits (flatIdx 0 d) 0)
          (shiftLeft (0 : Fin 2) c2xTarget 0 0) = -(Real.log 2) :=
        c2x_logSoftmax_zero _
      rw [h1, h2]
    have : logSumExp (fun d : Fin 2 =>
        logSoftmax (c2xDocScores 0) d +
          ∑ p ∈ Finset.univ.filter (fun p : Fin 2 =>
              shiftLeft (0 : Fin 2) c2xTarget 0 p ≠ 0),
            logSoftmax (c2xSeqLogits (flatIdx 0 d) p)
              (shiftLeft (0 : Fin 2) c2xTarget 0 p)) = -(Real.log 2) := by
      rw [show (fun d : Fin 2 =>
          logSoftmax (c2xDocScores 0) d +
            ∑ p ∈ Finset.univ.filter (fun p : Fin 2 =>
                shiftLeft (0 : Fin 2) c2xTarget 0 p ≠ 0),
              logSoftmax (c2xSeqLogits (flatIdx 0 d) p)
                (shiftLeft (0 : Fin 2) c2xTarget 0 p)) =
          fun _ : Fin 2 => -(Real.log 2) + -(Real.log 2) from funext htok]
      unfold logSumExp
      rw [Fin.sum_univ_two, Real.exp_add, hexp]
      have h14 : (2 : ℝ)⁻¹ * 2⁻¹ + 2⁻¹ * 2⁻¹ = 2⁻¹ := by norm_num
      rw [h14, Real.log_inv]
    rw [this, neg_neg]

end RagTF
